import Mathlib

set_option maxRecDepth 4000
set_option maxHeartbeats 1000000

/-!
Shallow embedding of `src/agent.py` (a small command line agent CLI):
environment substitution over config text (`envsubst` with
`ENV_SUBS_PATTERN`), the MCP config loader
(`load_mcp_servers_from_config`), response wrapping (`wrap_text` on top
of the standard `textwrap.fill`), and one turn of the console loop in
`chat`.  Machine strings are modelled as `String`/`List Char`; the
process environment and the external JSON parser are passed as explicit
function arguments; Python exceptions are modelled with `Except`.
-/

/- ### Environment substitution: `ENV_SUBS_PATTERN` and `envsubst` -/

/-- Character class `[A-Za-z_]`, the first character of a NAME in
`ENV_SUBS_PATTERN`. -/
def isNameStart (c : Char) : Bool := c.isAlpha || c = '_'

/-- Character class `[A-Za-z0-9_]` for the remaining NAME characters. -/
def isNameChar (c : Char) : Bool := isNameStart c || c.isDigit

/-- Valid capture of group 1 of `ENV_SUBS_PATTERN`: a nonempty name whose
head matches `[A-Za-z_]` and whose tail matches `[A-Za-z0-9_]*`. -/
def validName (n : List Char) : Bool :=
  match n with
  | [] => false
  | c :: rest => isNameStart c && rest.all isNameChar

/-- Given the text right after a name start character `c`, produce the
match of `ENV_SUBS_PATTERN` whose group 1 began at `c`: the name extends
greedily over name characters and an optional closing brace is consumed.
`pre` is the already matched prefix (a dollar, possibly with an opening
brace).  Returns (whole match, group 1, rest of the text). -/
def finishMatch (pre : List Char) (c : Char) (rest : List Char) :
    List Char × List Char × List Char :=
  let name := c :: rest.takeWhile isNameChar
  let after := rest.dropWhile isNameChar
  if after.head? = some '}' then (pre ++ name ++ ['}'], name, after.tail)
  else (pre ++ name, name, after)

/-- Matching of `ENV_SUBS_PATTERN` right after its leading dollar.  An
opening brace must be followed by a name start character (otherwise the
optional `\x7b?` cannot backtrack usefully, because a brace is not a name
start character, and the whole match fails). -/
def matchAfterDollar : List Char → Option (List Char × List Char × List Char)
  | [] => none
  | c :: rest =>
    if c = '{' then
      match rest with
      | [] => none
      | d :: rest2 =>
        if isNameStart d then some (finishMatch ['$', '{'] d rest2) else none
    else if isNameStart c then some (finishMatch ['$'] c rest) else none

/-- Attempt to match `ENV_SUBS_PATTERN` at the start of the text. -/
def matchToken (cs : List Char) : Option (List Char × List Char × List Char) :=
  match cs with
  | [] => none
  | c :: rest => if c = '$' then matchAfterDollar rest else none

/-- Scanner implementing `re.sub` with `ENV_SUBS_PATTERN`: at each
position, if the pattern matches, emit the replacement (the environment
value when group 1 is bound in the environment, the whole match
otherwise, exactly as the lambda in `envsubst` does) and continue after
the match; otherwise copy one character.  Fuel at least the length of the
input makes the scan total. -/
def envsubstCore (env : String → Option String) : Nat → List Char → List Char
  | 0, cs => cs
  | _ + 1, [] => []
  | fuel + 1, c :: cs =>
    match matchToken (c :: cs) with
    | some (whole, name, rest) =>
      (match env ⟨name⟩ with
       | some v => v.data
       | none => whole) ++ envsubstCore env fuel rest
    | none => c :: envsubstCore env fuel cs

/-- Model of `envsubst(text, env)` from `src/agent.py`. -/
def envsubst (text : String) (env : String → Option String) : String :=
  ⟨envsubstCore env text.data.length text.data⟩

/- ### Basic lemmas about the scanner -/

theorem matchToken_cons_ne {c : Char} (cs : List Char) (h : ¬c = '$') :
    matchToken (c :: cs) = none := by
  simp [matchToken, h]

theorem envsubstCore_nil (env : String → Option String) (fuel : Nat) :
    envsubstCore env fuel [] = [] := by
  cases fuel <;> rfl

theorem envsubstCore_cons_ne (env : String → Option String) (fuel : Nat)
    {c : Char} (cs : List Char) (h : ¬c = '$') :
    envsubstCore env (fuel + 1) (c :: cs) = c :: envsubstCore env fuel cs := by
  simp [envsubstCore, matchToken_cons_ne cs h]

theorem envsubstCore_match (env : String → Option String) (fuel : Nat)
    {c : Char} {cs whole name rest : List Char}
    (h : matchToken (c :: cs) = some (whole, name, rest)) :
    envsubstCore env (fuel + 1) (c :: cs) =
      (match env ⟨name⟩ with
       | some v => v.data
       | none => whole) ++ envsubstCore env fuel rest := by
  simp [envsubstCore, h]

theorem takeWhile_append_of_all {p : Char → Bool} :
    ∀ (l r : List Char), (∀ c ∈ l, p c = true) →
      (l ++ r).takeWhile p = l ++ r.takeWhile p := by
  intro l
  induction l with
  | nil => intro r _; simp
  | cons c l ih =>
    intro r h
    have hc : p c = true := h c (by simp)
    simp only [List.cons_append, List.takeWhile_cons, hc, if_true]
    rw [ih r (fun d hd => h d (by simp [hd]))]

theorem dropWhile_append_of_all {p : Char → Bool} :
    ∀ (l r : List Char), (∀ c ∈ l, p c = true) →
      (l ++ r).dropWhile p = r.dropWhile p := by
  intro l
  induction l with
  | nil => intro r _; simp
  | cons c l ih =>
    intro r h
    have hc : p c = true := h c (by simp)
    simp only [List.cons_append, List.dropWhile_cons, hc, if_true]
    exact ih r (fun d hd => h d (by simp [hd]))

theorem takeWhile_head_false {p : Char → Bool} :
    ∀ (l : List Char), (∀ c, l.head? = some c → p c = false) →
      l.takeWhile p = [] := by
  intro l h
  cases l with
  | nil => rfl
  | cons c l => simp [List.takeWhile_cons, h c rfl]

theorem dropWhile_head_false {p : Char → Bool} :
    ∀ (l : List Char), (∀ c, l.head? = some c → p c = false) →
      l.dropWhile p = l := by
  intro l h
  cases l with
  | nil => rfl
  | cons c l => simp [List.dropWhile_cons, h c rfl]

/- ### Exact matches of the pattern on structured inputs -/

/-- Head condition under which an unbraced token `$NAME` is matched
exactly: the following character must neither extend the name nor be a
closing brace (which the optional `\x7d?` would swallow). -/
def okAfterPlain : Option Char → Bool
  | none => true
  | some c => !isNameChar c && !(c = '}')

theorem validName_head {n : List Char} (h : validName n = true) :
    ∃ d nt, n = d :: nt ∧ isNameStart d = true ∧ (∀ c ∈ nt, isNameChar c = true) := by
  cases n with
  | nil => simp [validName] at h
  | cons d nt =>
    simp only [validName, Bool.and_eq_true, List.all_eq_true] at h
    exact ⟨d, nt, rfl, h.1, h.2⟩

theorem isNameStart_ne_brace {d : Char} (h : isNameStart d = true) : ¬d = '{' := by
  intro he; subst he; exact absurd h (by decide)

/-- Matching an exact unbraced token: when the text starts with `$NAME`
and the remainder neither extends the name nor starts with a closing
brace, the pattern matches exactly `$NAME` with group 1 `NAME`. -/
theorem matchToken_plain {n : List Char} (R : List Char)
    (hn : validName n = true) (hR : okAfterPlain R.head? = true) :
    matchToken ('$' :: (n ++ R)) = some ('$' :: n, n, R) := by
  obtain ⟨d, nt, rfl, hd, hnt⟩ := validName_head hn
  have hRhead : ∀ c, R.head? = some c → isNameChar c = false := by
    intro c hc
    rw [hc] at hR
    simp only [okAfterPlain, Bool.and_eq_true, Bool.not_eq_true'] at hR
    exact hR.1
  have hRbrace : ¬R.head? = some '}' := by
    intro hc
    rw [hc] at hR
    simp [okAfterPlain] at hR
  simp only [matchToken, if_pos rfl, List.cons_append]
  simp only [matchAfterDollar]
  rw [if_neg (isNameStart_ne_brace hd), if_pos hd]
  simp only [finishMatch]
  rw [takeWhile_append_of_all nt R hnt, takeWhile_head_false R hRhead,
      dropWhile_append_of_all nt R hnt, dropWhile_head_false R hRhead]
  simp [hRbrace]

/-- Matching an exact braced token `${NAME}`: the closing brace is part of
the match and anything may follow. -/
theorem matchToken_braced {n : List Char} (R : List Char)
    (hn : validName n = true) :
    matchToken ('$' :: '{' :: (n ++ ('}' :: R))) =
      some ('$' :: '{' :: (n ++ ['}']), n, R) := by
  obtain ⟨d, nt, rfl, hd, hnt⟩ := validName_head hn
  have hbr : ∀ c : Char, ('}' :: R).head? = some c → isNameChar c = false := by
    intro c hc
    simp only [List.head?_cons, Option.some.injEq] at hc
    subst hc; decide
  simp only [matchToken, if_pos rfl, List.cons_append]
  simp only [matchAfterDollar, if_true]
  rw [if_pos hd]
  simp only [finishMatch]
  rw [takeWhile_append_of_all nt ('}' :: R) hnt, takeWhile_head_false _ hbr,
      dropWhile_append_of_all nt ('}' :: R) hnt, dropWhile_head_false _ hbr]
  simp

/-- Matching a malformed braced token `${NAME` at the end of the text:
the regex still matches, with group 0 lacking any closing brace. -/
theorem matchToken_braced_unclosed {n : List Char} (hn : validName n = true) :
    matchToken ('$' :: '{' :: n) = some ('$' :: '{' :: n, n, []) := by
  obtain ⟨d, nt, rfl, hd, hnt⟩ := validName_head hn
  have hall : ∀ c ∈ nt, isNameChar c = true := hnt
  simp only [matchToken, if_pos rfl]
  simp only [matchAfterDollar, if_true]
  rw [if_pos hd]
  simp only [finishMatch]
  rw [List.takeWhile_eq_self_iff.mpr hall, List.dropWhile_eq_nil_iff.mpr hall]
  simp

/-- Matching `$NAME\x7d`: the stray closing brace is consumed as part of
group 0. -/
theorem matchToken_plain_brace {n : List Char} (hn : validName n = true) :
    matchToken ('$' :: (n ++ ['}'])) = some ('$' :: (n ++ ['}']), n, []) := by
  obtain ⟨d, nt, rfl, hd, hnt⟩ := validName_head hn
  have hbr : ∀ c : Char, (['}'] : List Char).head? = some c → isNameChar c = false := by
    intro c hc
    simp only [List.head?_cons, Option.some.injEq] at hc
    subst hc; decide
  simp only [matchToken, if_pos rfl, List.cons_append]
  simp only [matchAfterDollar]
  rw [if_neg (isNameStart_ne_brace hd), if_pos hd]
  simp only [finishMatch]
  rw [takeWhile_append_of_all nt ['}'] hnt, takeWhile_head_false _ hbr,
      dropWhile_append_of_all nt ['}'] hnt, dropWhile_head_false _ hbr]
  simp

/- ### Well-formed token decompositions of a text -/

/-- A segment of a text made of well-formed substitution tokens: a
literal piece with no dollar, an unbraced token `$NAME`, or a braced
token `${NAME}`. -/
inductive Tok where
  | lit : List Char → Tok
  | plain : List Char → Tok
  | braced : List Char → Tok

/-- Rendering of a segment back to text. -/
def Tok.render : Tok → List Char
  | .lit s => s
  | .plain n => '$' :: n
  | .braced n => '$' :: '{' :: (n ++ ['}'])

/-- Substitution of one segment the way the spec describes it: a token
whose NAME is bound in the environment becomes the bound value, any
other token (and any literal piece) stays byte identical. -/
def Tok.subst (env : String → Option String) : Tok → List Char
  | .lit s => s
  | .plain n =>
    (match env ⟨n⟩ with
     | some v => v.data
     | none => '$' :: n)
  | .braced n =>
    (match env ⟨n⟩ with
     | some v => v.data
     | none => '$' :: '{' :: (n ++ ['}']))

/-- Concatenated rendering of a decomposition. -/
def renderToks (ts : List Tok) : List Char := (ts.map Tok.render).join

/-- Concatenated per-token substitution of a decomposition. -/
def substToks (env : String → Option String) (ts : List Tok) : List Char :=
  (ts.map (Tok.subst env)).join

/-- First character of the rendering of a decomposition. -/
def headCharToks : List Tok → Option Char
  | [] => none
  | t :: ts =>
    match t.render with
    | [] => headCharToks ts
    | c :: _ => some c

/-- Well-formedness of a decomposition: literal pieces contain no dollar
(so every dollar of the text belongs to a token), token names are valid
NAMEs, and an unbraced token is never followed directly by a name
character (which would extend the match) or a closing brace (which the
match would swallow). -/
def wfToks : List Tok → Bool
  | [] => true
  | .lit s :: ts => s.all (fun c => !(c = '$')) && wfToks ts
  | .plain n :: ts => validName n && okAfterPlain (headCharToks ts) && wfToks ts
  | .braced n :: ts => validName n && wfToks ts

theorem headCharToks_eq_head (ts : List Tok) :
    headCharToks ts = (renderToks ts).head? := by
  induction ts with
  | nil => rfl
  | cons t ts ih =>
    have hjoin : renderToks (t :: ts) = t.render ++ renderToks ts := by
      simp [renderToks]
    rw [headCharToks]
    cases ht : t.render with
    | nil => rw [hjoin, ht]; simpa using ih
    | cons c l => rw [hjoin, ht]; simp

/-- Scanning a literal piece with no dollar copies it unchanged. -/
theorem envsubstCore_lit (env : String → Option String) :
    ∀ (s : List Char), (∀ c ∈ s, ¬c = '$') →
      ∀ (R : List Char) (fuel : Nat),
        envsubstCore env (s.length + fuel) (s ++ R) = s ++ envsubstCore env fuel R := by
  intro s
  induction s with
  | nil => intro _ R fuel; simp
  | cons c s ih =>
    intro h R fuel
    have hlen : (c :: s).length + fuel = (s.length + fuel) + 1 := by
      simp [List.length_cons]; omega
    rw [hlen, List.cons_append,
        envsubstCore_cons_ne env (s.length + fuel) _ (h c (by simp)),
        ih (fun d hd => h d (by simp [hd])) R fuel]
    rfl

/-- Core substitution theorem: on the rendering of a well-formed
decomposition, the scanner substitutes exactly token by token. -/
theorem envsubstCore_renderToks (env : String → Option String) :
    ∀ (ts : List Tok), wfToks ts = true →
      ∀ (extra : Nat),
        envsubstCore env ((renderToks ts).length + extra) (renderToks ts) =
          substToks env ts := by
  intro ts
  induction ts with
  | nil =>
    intro _ extra
    simp only [renderToks, substToks, List.map_nil, List.join_nil,
      List.length_nil, Nat.zero_add]
    exact envsubstCore_nil env extra
  | cons t ts ih =>
    intro hwf extra
    cases t with
    | lit s =>
      simp only [wfToks, Bool.and_eq_true, List.all_eq_true] at hwf
      obtain ⟨hs, hts⟩ := hwf
      have hs' : ∀ c ∈ s, ¬c = '$' := by
        intro c hc
        have := hs c hc
        simpa using this
      have hjoin : renderToks (Tok.lit s :: ts) = s ++ renderToks ts := by
        simp [renderToks, Tok.render]
      rw [hjoin]
      have hlen : (s ++ renderToks ts).length + extra =
          s.length + ((renderToks ts).length + extra) := by
        simp [List.length_append]; omega
      rw [hlen, envsubstCore_lit env s hs' (renderToks ts) _, ih hts extra]
      simp [substToks, Tok.subst]
    | plain n =>
      simp only [wfToks, Bool.and_eq_true] at hwf
      obtain ⟨⟨hn, hok⟩, hts⟩ := hwf
      have hjoin : renderToks (Tok.plain n :: ts) = '$' :: (n ++ renderToks ts) := by
        simp [renderToks, Tok.render]
      rw [hjoin]
      have hok' : okAfterPlain (renderToks ts).head? = true := by
        rwa [headCharToks_eq_head] at hok
      have hmatch := matchToken_plain (n := n) (renderToks ts) hn hok'
      have hlen : ('$' :: (n ++ renderToks ts)).length + extra =
          (n.length + ((renderToks ts).length + extra)) + 1 := by
        simp [List.length_cons, List.length_append]; omega
      rw [hlen, envsubstCore_match env _ hmatch]
      have hfuel : n.length + ((renderToks ts).length + extra) =
          (renderToks ts).length + (n.length + extra) := by omega
      rw [hfuel, ih hts (n.length + extra)]
      simp [substToks, Tok.subst]
    | braced n =>
      simp only [wfToks, Bool.and_eq_true] at hwf
      obtain ⟨hn, hts⟩ := hwf
      have hjoin : renderToks (Tok.braced n :: ts) =
          '$' :: '{' :: (n ++ ('}' :: renderToks ts)) := by
        simp [renderToks, Tok.render]
      rw [hjoin]
      have hmatch := matchToken_braced (n := n) (renderToks ts) hn
      have hlen : ('$' :: '{' :: (n ++ ('}' :: renderToks ts))).length + extra =
          (n.length + 2 + ((renderToks ts).length + extra)) + 1 := by
        simp [List.length_cons, List.length_append]; omega
      rw [hlen, envsubstCore_match env _ hmatch]
      have hfuel : n.length + 2 + ((renderToks ts).length + extra) =
          (renderToks ts).length + (n.length + 2 + extra) := by omega
      rw [hfuel, ih hts (n.length + 2 + extra)]
      simp [substToks, Tok.subst]

/- ### Claim theorems about envsubst -/

/-- C1: for every environment mapping and every text consisting only of
well-formed `$NAME` and `$\x7bNAME\x7d` tokens (interleaved with literal
pieces), `envsubst` replaces every token whose NAME the environment binds
with the bound value and leaves every other token byte identical,
including its dollar and brace syntax. -/
theorem C1_envsubst_wellformed (env : String → Option String) (ts : List Tok)
    (h : wfToks ts = true) :
    envsubst ⟨renderToks ts⟩ env = ⟨substToks env ts⟩ := by
  show (⟨envsubstCore env (renderToks ts).length (renderToks ts)⟩ : String) = _
  have := envsubstCore_renderToks env ts h 0
  rw [Nat.add_zero] at this
  rw [this]

/-- Concrete environment used by the witnesses: binds HOME and USER. -/
def env0 : String → Option String :=
  fun n => if n = "HOME" then some "/root" else if n = "USER" then some "alice" else none

/-- Concrete well-formed decomposition used by the C1 witness. -/
def toks0 : List Tok :=
  [Tok.lit ("path=").data, Tok.braced ("HOME").data, Tok.lit ("/x ").data,
   Tok.plain ("MISSING").data, Tok.lit (" ").data, Tok.plain ("USER").data]

theorem C1_envsubst_wellformed_witness :
    wfToks toks0 = true ∧
      envsubst ⟨renderToks toks0⟩ env0 = ⟨substToks env0 toks0⟩ ∧
      (⟨substToks env0 toks0⟩ : String) = "path=/root/x $MISSING alice" :=
  ⟨by decide, C1_envsubst_wellformed env0 toks0 (by decide), by decide⟩

/-- Scan of a text for any match of `ENV_SUBS_PATTERN`: true when some
position of the text starts a token. -/
def hasToken : List Char → Bool
  | [] => false
  | c :: cs => (matchToken (c :: cs)).isSome || hasToken cs

/-- Model of the check that a string has no remaining substitution
tokens. -/
def hasTokenStr (s : String) : Bool := hasToken s.data

theorem envsubstCore_no_token (env : String → Option String) :
    ∀ (cs : List Char), hasToken cs = false →
      ∀ (fuel : Nat), envsubstCore env fuel cs = cs := by
  intro cs
  induction cs with
  | nil => intro _ fuel; exact envsubstCore_nil env fuel
  | cons c cs ih =>
    intro h fuel
    simp only [hasToken, Bool.or_eq_false_iff] at h
    have hnone : matchToken (c :: cs) = none := by
      cases hm : matchToken (c :: cs) with
      | none => rfl
      | some x => rw [hm] at h; simp at h
    cases fuel with
    | zero => rfl
    | succ fuel =>
      simp only [envsubstCore, hnone]
      rw [ih h.2 fuel]

/-- C8: substitution is idempotent on any text whose substituted form has
no remaining token: applying `envsubst` twice equals applying it once. -/
theorem C8_envsubst_idempotent (text : String) (env : String → Option String)
    (h : hasTokenStr (envsubst text env) = false) :
    envsubst (envsubst text env) env = envsubst text env := by
  show (⟨envsubstCore env (envsubst text env).data.length (envsubst text env).data⟩ : String)
      = envsubst text env
  rw [envsubstCore_no_token env _ h]

theorem C8_envsubst_idempotent_witness :
    hasTokenStr (envsubst "go $HOME now" env0) = false ∧
      envsubst (envsubst "go $HOME now" env0) env0 = envsubst "go $HOME now" env0 :=
  ⟨by decide, C8_envsubst_idempotent "go $HOME now" env0 (by decide)⟩

/-- C9: the optional braces make the pattern match malformed tokens as
well.  For any bound NAME, a text that is exactly the unclosed token
`$\x7bNAME` is replaced by the bound value, and a text that is exactly
`$NAME\x7d` has the stray closing brace consumed by the match, so the
result is exactly the bound value with no trailing brace. -/
theorem C9_envsubst_malformed (env : String → Option String) (n : List Char)
    (v : String) (hn : validName n = true) (hv : env ⟨n⟩ = some v) :
    envsubst ⟨'$' :: '{' :: n⟩ env = v ∧
      envsubst ⟨'$' :: (n ++ ['}'])⟩ env = v := by
  constructor
  · show (⟨envsubstCore env ('$' :: '{' :: n).length ('$' :: '{' :: n)⟩ : String) = v
    have hlen : ('$' :: '{' :: n).length = n.length + 1 + 1 := by
      simp [List.length_cons]
    rw [hlen, envsubstCore_match env _ (matchToken_braced_unclosed hn), hv]
    rw [envsubstCore_nil]
    simp
  · show (⟨envsubstCore env ('$' :: (n ++ ['}'])).length ('$' :: (n ++ ['}']))⟩ : String) = v
    have hlen : ('$' :: (n ++ ['}'])).length = n.length + 1 + 1 := by
      simp [List.length_cons, List.length_append]
    rw [hlen, envsubstCore_match env _ (matchToken_plain_brace hn), hv]
    rw [envsubstCore_nil]
    simp

theorem C9_envsubst_malformed_witness :
    validName ("HOME").data = true ∧ env0 ⟨("HOME").data⟩ = some "/root" ∧
      (envsubst ⟨'$' :: '{' :: ("HOME").data⟩ env0 = "/root" ∧
       envsubst ⟨'$' :: (("HOME").data ++ ['}'])⟩ env0 = "/root") :=
  ⟨by decide, by decide,
   C9_envsubst_malformed env0 ("HOME").data "/root" (by decide) (by decide)⟩

/- ### The MCP config loader -/

/-- Parsed JSON documents, the output of the external `json.loads`. -/
inductive JValue where
  | null : JValue
  | bool : Bool → JValue
  | num : Int → JValue
  | str : String → JValue
  | arr : List JValue → JValue
  | obj : List (String × JValue) → JValue

/-- Lookup in a parsed JSON object (Python dict access by key). -/
def jlookup (kvs : List (String × JValue)) (k : String) : Option JValue :=
  (kvs.find? (fun p => p.1 = k)).map (fun p => p.2)

/-- Model of `MCPServerStdio(command=..., args=..., env=...)`: the
external constructor stores the three values it is given. -/
structure MCPServerStdio where
  command : JValue
  args : JValue
  env : Option JValue

/-- Substring test on strings (Python `needle in haystack` for `str`). -/
def isSubstr (needle hay : String) : Bool := decide (needle.data <:+: hay.data)

/-- Python membership `k in v` on a parsed JSON value: key lookup for a
dict, substring test for a string, element equality for a list, and a
TypeError for the remaining types. -/
def pyContains (v : JValue) (k : String) : Except String Bool :=
  match v with
  | .obj kvs => .ok (jlookup kvs k).isSome
  | .str s => .ok (isSubstr k s)
  | .arr l =>
    .ok (l.any (fun x =>
      match x with
      | .str s => s = k
      | _ => false))
  | _ => .error "TypeError: argument is not iterable"

/-- Python subscription `v[k]` with a string key: only a dict supports
it; a string or list raises a TypeError on string indices. -/
def pyIndex (v : JValue) (k : String) : Except String JValue :=
  match v with
  | .obj kvs =>
    match jlookup kvs k with
    | some x => .ok x
    | none => .error "KeyError"
  | _ => .error "TypeError: indices must be integers"

/-- Model of `server_config.get` on the env key: an absent key yields
Python None, and a JSON null parses to Python None as well, so both map
to `none`. -/
def pyGetEnv (v : JValue) : Option JValue :=
  match v with
  | .obj kvs =>
    match jlookup kvs "env" with
    | some JValue.null => none
    | o => o
  | _ => none

/-- Warning printed for an entry missing a required field (39 is the
ASCII quote around the server name). -/
def warnMsg (name : String) : String :=
  "Warning: Server " ++ ⟨[Char.ofNat 39]⟩ ++ name ++ ⟨[Char.ofNat 39]⟩ ++
    " is missing required fields (command, args)."

/-- Info line printed for each loaded entry. -/
def loadedMsg (name : String) : String :=
  "Loaded MCP server configuration: " ++ name

/-- Diagnostic printed by the catch-all handler of the loader. -/
def errLog (e : String) : String :=
  "Error loading MCP server configurations: " ++ e

/-- The loop over `config["mcpServers"].items()`: validate each entry,
skip invalid ones with a warning, build an `MCPServerStdio` from each
valid one, and log it.  Returns the lines printed so far together with
either the accumulated servers or the first uncaught exception (which in
the Python code escapes the loop and discards the accumulated list). -/
def processEntries : List (String × JValue) → List String × Except String (List MCPServerStdio)
  | [] => ([], Except.ok [])
  | (name, v) :: rest =>
    match pyContains v "command" with
    | .error e => ([], .error e)
    | .ok hasCmd =>
      if !hasCmd then
        let r := processEntries rest
        (warnMsg name :: r.1, r.2)
      else
        match pyContains v "args" with
        | .error e => ([], .error e)
        | .ok hasArgs =>
          if !hasArgs then
            let r := processEntries rest
            (warnMsg name :: r.1, r.2)
          else
            match pyIndex v "command" with
            | .error e => ([], .error e)
            | .ok cmd =>
              match pyIndex v "args" with
              | .error e => ([], .error e)
              | .ok args =>
                let r := processEntries rest
                (loadedMsg name :: r.1,
                 r.2.map (fun ss => ⟨cmd, args, pyGetEnv v⟩ :: ss))

/-- Python `.items()` on the value under the mcpServers key: only a dict
has it. -/
def pyItems (v : JValue) : Except String (List (String × JValue)) :=
  match v with
  | .obj kvs => .ok kvs
  | _ => .error "AttributeError: no attribute items"

/-- Body of the try block of `load_mcp_servers_from_config`: substitute
the environment into the raw text, parse it with the external
`json.loads` (passed in as `jparse`), check for the mcpServers key and
iterate over its entries.  Returns the printed lines so far and either
the server list or the first exception. -/
def loadAttempt (content : String) (env : String → Option String)
    (jparse : String → Except String JValue) :
    List String × Except String (List MCPServerStdio) :=
  match jparse (envsubst content env) with
  | .error e => ([], .error e)
  | .ok config =>
    match pyContains config "mcpServers" with
    | .error e => ([], .error e)
    | .ok b =>
      if !b then ([], .ok [])
      else
        match pyIndex config "mcpServers" with
        | .error e => ([], .error e)
        | .ok sv =>
          match pyItems sv with
          | .error e => ([], .error e)
          | .ok entries => processEntries entries

/-- Model of `load_mcp_servers_from_config`: an absent config file yields
no servers and no output; otherwise the try block runs and any exception
is caught and logged (the traceback printed by `traceback.print_exc` is
not modelled as text).  Returns the server list and the printed lines. -/
def load_mcp_servers_from_config (fileExists : Bool) (content : String)
    (env : String → Option String) (jparse : String → Except String JValue) :
    List MCPServerStdio × List String :=
  if !fileExists then ([], [])
  else
    match loadAttempt content env jparse with
    | (ls, .ok servers) => (servers, ls)
    | (ls, .error e) => ([], ls ++ [errLog e])

/- ### Claim theorems about the loader -/

/-- Test for a parsed JSON object. -/
def isObjJ : JValue → Bool
  | .obj _ => true
  | _ => false

/-- Conversion of a single mcpServers entry the way the spec states it:
an object with both required keys becomes one descriptor (with env
defaulting to unset), anything else becomes nothing. -/
def entryToServer : JValue → Option MCPServerStdio
  | .obj kvs =>
    (match jlookup kvs "command", jlookup kvs "args" with
     | some c, some a => some ⟨c, a, pyGetEnv (.obj kvs)⟩
     | _, _ => none)
  | _ => none

theorem isObjJ_obj {v : JValue} (h : isObjJ v = true) :
    ∃ kvs, v = JValue.obj kvs := by
  cases v
  case obj kvs => exact ⟨kvs, rfl⟩
  all_goals simp [isObjJ] at h

/-- C3: over a mcpServers mapping whose entries are objects, the loader
loop skips every entry missing the command or args key with a warning
naming that entry, converts every entry having both keys one to one into
a descriptor in the iteration order of the mapping, never aborts on a
skipped entry, and each warning text contains the name of the entry. -/
theorem C3_processEntries (entries : List (String × JValue))
    (h : ∀ p ∈ entries, isObjJ p.2 = true) :
    processEntries entries =
      (entries.map (fun p =>
         if (entryToServer p.2).isSome then loadedMsg p.1 else warnMsg p.1),
       Except.ok (entries.filterMap (fun p => entryToServer p.2)))
    ∧ ∀ name : String, name.data <:+: (warnMsg name).data := by
  constructor
  · induction entries with
    | nil => rfl
    | cons p rest ih =>
      obtain ⟨name, v⟩ := p
      obtain ⟨kvs, rfl⟩ := isObjJ_obj (h (name, v) (by simp))
      have hrest : ∀ q ∈ rest, isObjJ q.2 = true := fun q hq => h q (by simp [hq])
      have ihr := ih hrest
      cases hc : jlookup kvs "command" with
      | none =>
        simp [processEntries, pyContains, hc, ihr, entryToServer]
      | some c =>
        cases ha : jlookup kvs "args" with
        | none =>
          simp [processEntries, pyContains, pyIndex, hc, ha, ihr, entryToServer]
        | some a =>
          simp [processEntries, pyContains, pyIndex, hc, ha, ihr, entryToServer,
            Except.map]
  · intro name
    refine ⟨("Warning: Server " ++ ⟨[Char.ofNat 39]⟩ : String).data,
      ((⟨[Char.ofNat 39]⟩ : String) ++ " is missing required fields (command, args).").data, ?_⟩
    show _ ++ name.data ++ _ = (warnMsg name).data
    simp [warnMsg]

/-- Concrete entries for the C3 witness: one valid entry and one entry
missing args. -/
def entries0 : List (String × JValue) :=
  [("good", JValue.obj [("command", JValue.str "npx"),
                        ("args", JValue.arr [JValue.str "-y"])]),
   ("bad", JValue.obj [("command", JValue.str "node")])]

theorem C3_processEntries_witness :
    (∀ p ∈ entries0, isObjJ p.2 = true) ∧
      processEntries entries0 =
        ([loadedMsg "good", warnMsg "bad"],
         Except.ok [⟨JValue.str "npx", JValue.arr [JValue.str "-y"], none⟩]) :=
  ⟨by decide, by
    have := (C3_processEntries entries0 (by decide)).1
    rw [this]; rfl⟩

/-- C5: any exception inside the loading attempt, a JSON parse failure in
particular, is caught by the loader, which then returns the empty
descriptor list and appends a diagnostic to the printed output instead of
propagating the exception. -/
theorem C5_load_catches (content : String) (env : String → Option String)
    (jparse : String → Except String JValue) :
    (∀ e, jparse (envsubst content env) = Except.error e →
       loadAttempt content env jparse = ([], Except.error e))
    ∧ (∀ ls e, loadAttempt content env jparse = (ls, Except.error e) →
        load_mcp_servers_from_config true content env jparse = ([], ls ++ [errLog e])) := by
  constructor
  · intro e he
    simp [loadAttempt, he]
  · intro ls e hl
    simp [load_mcp_servers_from_config, hl]

/-- Parser that always fails, used by the C5 witness. -/
def jparseFail : String → Except String JValue := fun _ => Except.error "boom"

theorem C5_load_catches_witness :
    jparseFail (envsubst "x" env0) = Except.error "boom" ∧
      loadAttempt "x" env0 jparseFail = ([], Except.error "boom") ∧
      load_mcp_servers_from_config true "x" env0 jparseFail = ([], [errLog "boom"]) := by
  refine ⟨rfl, ?_, ?_⟩
  · exact (C5_load_catches "x" env0 jparseFail).1 "boom" rfl
  · exact (C5_load_catches "x" env0 jparseFail).2 [] "boom"
      ((C5_load_catches "x" env0 jparseFail).1 "boom" rfl)

/-- C6: when the config file does not exist the loader returns the empty
descriptor list, prints nothing, and (being a total function in this
model) raises nothing. -/
theorem C6_load_missing_file (content : String) (env : String → Option String)
    (jparse : String → Except String JValue) :
    load_mcp_servers_from_config false content env jparse = ([], []) := by
  simp [load_mcp_servers_from_config]

/- ### Text wrapping: `wrap_text` on top of `textwrap.fill` -/

/-- Fixed wrap column `WRAP_WIDTH` from `src/agent.py`. -/
def WRAP_WIDTH : Nat := 80

/-- The ASCII whitespace set of `string.whitespace`, used by the text
wrapper (tab, newline, vertical tab, form feed, carriage return, space).
Non ASCII whitespace is outside the scope of this model. -/
def pyWhitespaceChar (c : Char) : Bool :=
  c = '\t' || c = '\n' || c = '\x0b' || c = '\x0c' || c = '\r' || c = ' '

/-- Python `str.expandtabs(8)`: a tab fills up to the next multiple of 8
columns; a newline or carriage return resets the column. -/
def expandTabsAux : Nat → List Char → List Char
  | _, [] => []
  | col, c :: cs =>
    if c = '\t' then
      List.replicate (8 - col % 8) ' ' ++ expandTabsAux (col + (8 - col % 8)) cs
    else if c = '\n' ∨ c = '\r' then c :: expandTabsAux 0 cs
    else c :: expandTabsAux (col + 1) cs

/-- One character of the whitespace translation of the wrapper: every
character of the whitespace set becomes a space. -/
def mungeChar (c : Char) : Char := if pyWhitespaceChar c then ' ' else c

/-- Model of `TextWrapper._munge_whitespace` with the default options:
expand tabs, then replace each whitespace character by a space. -/
def mungeWhitespace (s : List Char) : List Char :=
  (expandTabsAux 0 s).map mungeChar

/-- Split of munged text into chunks: maximal runs of spaces alternate
with maximal runs of other characters (after munging, every ASCII
whitespace character is a space, so splitting on spaces implements the
whitespace based word separation; the finer hyphen splitting of compound
words done by the default CPython word separator is not modelled, so a
hyphenated compound is kept as one chunk). -/
def splitChunksCore : Nat → List Char → List (List Char)
  | 0, _ => []
  | _ + 1, [] => []
  | fuel + 1, c :: cs =>
    ((c :: cs).takeWhile (fun d => (d == ' ') == (c == ' '))) ::
      splitChunksCore fuel ((c :: cs).dropWhile (fun d => (d == ' ') == (c == ' ')))

def splitChunks (s : List Char) : List (List Char) := splitChunksCore s.length s

/-- Python `str.strip()` over the ASCII whitespace set. -/
def pyStrip (l : List Char) : List Char :=
  ((l.dropWhile pyWhitespaceChar).reverse.dropWhile pyWhitespaceChar).reverse

/-- Test `chunk.strip() == ""` used by the wrapper to drop whitespace
chunks at line boundaries. -/
def chunkIsWs (ch : List Char) : Bool := (pyStrip ch).isEmpty

/-- The greedy inner loop of `_wrap_chunks`: move chunks onto the current
line while the accumulated length stays within the width.  Returns the
chunks of the line and the remaining chunks. -/
def takeLine (width : Nat) : Nat → List (List Char) → List (List Char) × List (List Char)
  | _, [] => ([], [])
  | curLen, ch :: rest =>
    if curLen + ch.length ≤ width then
      let r := takeLine width (curLen + ch.length) rest
      (ch :: r.1, r.2)
    else ([], ch :: rest)

/-- Python `chunk.rfind(hyphen, 0, bound)`: index of the last hyphen
strictly before `bound`, if any. -/
def rfindHyphen (l : List Char) (bound : Nat) : Option Nat :=
  match (l.take bound).reverse.findIdx? (fun c => c == '-') with
  | some j => some ((l.take bound).length - 1 - j)
  | none => none

/-- Model of `_handle_long_word` with the default options: how many
characters of an overlong chunk go onto the current line.  The break
happens at the space left on the line, or right after the last hyphen
before that point when the hyphen is preceded by some non hyphen. -/
def longEnd (width curLen : Nat) (chunk : List Char) : Nat :=
  let spaceLeft := if width < 1 then 1 else width - curLen
  if spaceLeft < chunk.length then
    match rfindHyphen chunk spaceLeft with
    | some h =>
      if 0 < h ∧ (chunk.take h).any (fun c => !(c == '-')) = true then h + 1
      else spaceLeft
    | none => spaceLeft
  else spaceLeft

/-- Long word step of `_wrap_chunks`: when the next chunk is longer than
the whole width, move its broken head onto the current line and keep its
tail as the next chunk. -/
def handleLong (width : Nat) (line0 rest0 : List (List Char)) :
    List (List Char) × List (List Char) :=
  match rest0 with
  | [] => (line0, [])
  | ch :: rest1 =>
    if width < ch.length then
      (line0 ++ [ch.take (longEnd width ((line0.map List.length).sum) ch)],
       ch.drop (longEnd width ((line0.map List.length).sum) ch) :: rest1)
    else (line0, ch :: rest1)

/-- Drop of one trailing whitespace chunk from the current line. -/
def dropTrailingWs (line : List (List Char)) : List (List Char) :=
  match line.getLast? with
  | some last => if chunkIsWs last then line.dropLast else line
  | none => line

/-- One iteration of the outer loop of `_wrap_chunks` after the leading
whitespace drop: fill the line greedily, break an overlong next chunk,
then drop a trailing whitespace chunk.  Returns the chunks of the
emitted line and the remaining chunks. -/
def emitLine (width : Nat) (chunks : List (List Char)) :
    List (List Char) × List (List Char) :=
  (dropTrailingWs
     (handleLong width (takeLine width 0 chunks).1 (takeLine width 0 chunks).2).1,
   (handleLong width (takeLine width 0 chunks).1 (takeLine width 0 chunks).2).2)

/-- The outer loop of `_wrap_chunks` (no indents, no maximum line count):
drop one leading whitespace chunk when some line was already emitted,
emit one line, and continue.  The fuel makes the recursion structural;
any fuel of at least the total chunk length plus the chunk count
completes the scan. -/
def wrapChunksCore (width : Nat) : Nat → Bool → List (List Char) → List (List Char)
  | 0, _, _ => []
  | _ + 1, _, [] => []
  | fuel + 1, hasLines, ch0 :: rest =>
    match (if hasLines && chunkIsWs ch0 then rest else ch0 :: rest) with
    | [] => []
    | d :: ds =>
      if (emitLine width (d :: ds)).1.isEmpty then
        wrapChunksCore width fuel hasLines (emitLine width (d :: ds)).2
      else
        (emitLine width (d :: ds)).1.join ::
          wrapChunksCore width fuel true (emitLine width (d :: ds)).2

/-- Fuel that exceeds the measure decreased by every iteration. -/
def fillFuel (chunks : List (List Char)) : Nat :=
  (chunks.map (fun ch => ch.length + 1)).sum + 1

/-- Python `"\n".join`. -/
def joinNl : List (List Char) → List Char
  | [] => []
  | [l] => l
  | l :: ls => l ++ '\n' :: joinNl ls

/-- Model of `textwrap.fill(p, width)` with the default wrapper options
(modulo the hyphen word separation noted at `splitChunksCore`). -/
def fillL (width : Nat) (p : List Char) : List Char :=
  joinNl (wrapChunksCore width (fillFuel (splitChunks (mungeWhitespace p))) false
    (splitChunks (mungeWhitespace p)))

/-- Python `text.split("\n")`. -/
def splitNl : List Char → List (List Char)
  | [] => [[]]
  | c :: cs =>
    if c = '\n' then [] :: splitNl cs
    else
      match splitNl cs with
      | h :: t => (c :: h) :: t
      | [] => [[c]]

/-- Model of `wrap_text` from `src/agent.py`: split into lines, fill each
line whose strip is nonempty at `WRAP_WIDTH`, keep blank lines as they
are, and join with newlines. -/
def wrapTextL (t : List Char) : List Char :=
  joinNl ((splitNl t).map (fun p => if (pyStrip p).isEmpty then p else fillL WRAP_WIDTH p))

def wrap_text (s : String) : String := ⟨wrapTextL s.data⟩

/- ### Line algebra for the wrapper -/

theorem splitNl_ne_nil : ∀ t : List Char, splitNl t ≠ [] := by
  intro t
  induction t with
  | nil => simp [splitNl]
  | cons c cs ih =>
    by_cases h : c = '\n'
    · simp [splitNl, h]
    · simp only [splitNl, if_neg h]
      cases hs : splitNl cs with
      | nil => exact absurd hs ih
      | cons a l => simp

theorem splitNl_no_newline :
    ∀ (t p : List Char), p ∈ splitNl t → ∀ c ∈ p, ¬c = '\n' := by
  intro t
  induction t with
  | nil =>
    intro p hp c hc
    simp only [splitNl, List.mem_singleton] at hp
    subst hp
    simp at hc
  | cons d cs ih =>
    intro p hp c hc
    by_cases h : d = '\n'
    · simp only [splitNl, if_pos h, List.mem_cons] at hp
      rcases hp with rfl | hp
      · simp at hc
      · exact ih p hp c hc
    · simp only [splitNl, if_neg h] at hp
      cases hs : splitNl cs with
      | nil => exact absurd hs (splitNl_ne_nil cs)
      | cons a l =>
        rw [hs] at hp
        rcases List.mem_cons.mp hp with rfl | hp
        · rcases List.mem_cons.mp hc with rfl | hc
          · exact h
          · exact ih a (by rw [hs]; exact List.mem_cons_self a l) c hc
        · exact ih p (by rw [hs]; exact List.mem_cons_of_mem a hp) c hc

theorem splitNl_append_newline :
    ∀ a b : List Char, splitNl (a ++ '\n' :: b) = splitNl a ++ splitNl b := by
  intro a b
  induction a with
  | nil => simp [splitNl]
  | cons c a ih =>
    by_cases h : c = '\n'
    · simp only [List.cons_append, splitNl, if_pos h, List.append_eq]
      rw [ih]
    · simp only [List.cons_append, splitNl, if_neg h, List.append_eq]
      rw [ih]
      cases hs : splitNl a with
      | nil => exact absurd hs (splitNl_ne_nil a)
      | cons x l => simp

theorem splitNl_of_no_newline :
    ∀ l : List Char, (∀ c ∈ l, ¬c = '\n') → splitNl l = [l] := by
  intro l
  induction l with
  | nil => intro _; rfl
  | cons c cs ih =>
    intro h
    have hc : ¬c = '\n' := h c (by simp)
    simp only [splitNl, if_neg hc, ih (fun d hd => h d (by simp [hd]))]

theorem splitNl_joinNl :
    ∀ xs : List (List Char), xs ≠ [] → splitNl (joinNl xs) = xs.bind splitNl := by
  intro xs
  induction xs with
  | nil => intro h; exact absurd rfl h
  | cons x xs ih =>
    intro _
    cases xs with
    | nil => simp [joinNl]
    | cons y ys =>
      show splitNl (x ++ '\n' :: joinNl (y :: ys)) = _
      rw [splitNl_append_newline, ih (by simp)]
      simp

theorem bind_splitNl_id :
    ∀ ls : List (List Char), (∀ l ∈ ls, splitNl l = [l]) → ls.bind splitNl = ls := by
  intro ls
  induction ls with
  | nil => intro _; rfl
  | cons l ls ih =>
    intro h
    simp only [List.cons_bind, h l (by simp), ih (fun m hm => h m (by simp [hm]))]
    rfl

theorem bind_congr_mem {α β : Type} (l : List α) (f g : α → List β)
    (h : ∀ a ∈ l, f a = g a) : l.bind f = l.bind g := by
  induction l with
  | nil => rfl
  | cons a l ih =>
    simp only [List.cons_bind, h a (by simp), ih (fun b hb => h b (by simp [hb]))]

theorem map_bind_comp {α β γ : Type} (l : List α) (g : α → β) (f : β → List γ) :
    (l.map g).bind f = l.bind (fun a => f (g a)) := by
  induction l with
  | nil => rfl
  | cons a l ih => simp only [List.map_cons, List.cons_bind, ih]

/- ### Width bound of the wrapper -/

theorem takeLine_sum_le (width : Nat) :
    ∀ (chs : List (List Char)) (curLen : Nat), curLen ≤ width →
      curLen + (((takeLine width curLen chs).1).map List.length).sum ≤ width := by
  intro chs
  induction chs with
  | nil => intro curLen h; simpa [takeLine] using h
  | cons ch rest ih =>
    intro curLen h
    by_cases hfit : curLen + ch.length ≤ width
    · have := ih (curLen + ch.length) hfit
      simp only [takeLine, if_pos hfit, List.map_cons, List.sum_cons]
      omega
    · simp only [takeLine, if_neg hfit, List.map_nil, List.sum_nil]
      omega

theorem rfindHyphen_lt {l : List Char} {b h : Nat}
    (hr : rfindHyphen l b = some h) : h < b := by
  unfold rfindHyphen at hr
  cases hj : (l.take b).reverse.findIdx? (fun c => c == '-') with
  | none => rw [hj] at hr; exact absurd hr (by simp)
  | some j =>
    rw [hj] at hr
    have hne : (l.take b).reverse ≠ [] := by
      intro he
      rw [he] at hj
      simp [List.findIdx?] at hj
    have hlen : 1 ≤ (l.take b).length := by
      cases hl : l.take b with
      | nil => rw [hl] at hne; simp at hne
      | cons x xs => simp [hl]
    have hble : (l.take b).length ≤ b := by
      simpa using List.length_take_le b l
    simp only [Option.some.injEq] at hr
    omega

theorem longEnd_le {width curLen : Nat} (hw : 1 ≤ width) (chunk : List Char) :
    longEnd width curLen chunk ≤ width - curLen := by
  have hwn : ¬width < 1 := by omega
  by_cases hlong : width - curLen < chunk.length
  · cases hr : rfindHyphen chunk (width - curLen) with
    | none => simp [longEnd, hwn, hlong, hr]
    | some h =>
      have hlt := rfindHyphen_lt hr
      by_cases hcond : 0 < h ∧ (chunk.take h).any (fun c => !(c == '-')) = true
      · simp only [longEnd, hwn, if_false, if_pos hlong, hr, if_pos hcond]
        omega
      · simp only [longEnd, hwn, if_false, if_pos hlong, hr, if_neg hcond]
        omega
  · simp [longEnd, hwn, hlong]

theorem length_take_le_of_le {l : List Char} {e k : Nat} (h : e ≤ k) :
    (l.take e).length ≤ k := by
  have := List.length_take_le e l
  omega

theorem sum_dropLast_le (line : List (List Char)) :
    ((line.dropLast).map List.length).sum ≤ (line.map List.length).sum := by
  induction line with
  | nil => simp
  | cons x xs ih =>
    cases xs with
    | nil => simp
    | cons y ys =>
      simp only [List.dropLast_cons_of_ne_nil (by simp : (y :: ys) ≠ []),
        List.map_cons, List.sum_cons]
      have h2 := ih
      simp only [List.map_cons, List.sum_cons] at h2
      omega

theorem handleLong_sum_le (width : Nat) (hw : 1 ≤ width)
    (line0 rest0 : List (List Char))
    (h0 : ((line0.map List.length).sum) ≤ width) :
    (((handleLong width line0 rest0).1).map List.length).sum ≤ width := by
  cases rest0 with
  | nil => simpa [handleLong] using h0
  | cons ch rest1 =>
    by_cases hlong : width < ch.length
    · have hE := @longEnd_le width ((line0.map List.length).sum) hw ch
      have htake := length_take_le_of_le (l := ch) hE
      simp only [handleLong, if_pos hlong, List.map_append, List.sum_append,
        List.map_cons, List.sum_cons, List.map_nil, List.sum_nil]
      omega
    · simpa [handleLong, hlong] using h0

theorem dropTrailingWs_sum_le (line : List (List Char)) :
    (((dropTrailingWs line).map List.length).sum) ≤ ((line.map List.length).sum) := by
  cases hl : line.getLast? with
  | none => simp [dropTrailingWs, hl]
  | some last =>
    by_cases hws : chunkIsWs last = true
    · simp only [dropTrailingWs, hl, hws, if_true]
      exact sum_dropLast_le line
    · simp [dropTrailingWs, hl, hws]

theorem emitLine_sum_le (width : Nat) (hw : 1 ≤ width) (chunks : List (List Char)) :
    (((emitLine width chunks).1).map List.length).sum ≤ width := by
  have h0 := takeLine_sum_le width chunks 0 (Nat.zero_le width)
  have h1 : (((takeLine width 0 chunks).1).map List.length).sum ≤ width := by omega
  have h2 := handleLong_sum_le width hw (takeLine width 0 chunks).1
    (takeLine width 0 chunks).2 h1
  have h3 := dropTrailingWs_sum_le
    (handleLong width (takeLine width 0 chunks).1 (takeLine width 0 chunks).2).1
  simp only [emitLine]
  omega

theorem mem_wrapChunksCore_length_le (width : Nat) (hw : 1 ≤ width) :
    ∀ (fuel : Nat) (hasLines : Bool) (chs : List (List Char)) (line : List Char),
      line ∈ wrapChunksCore width fuel hasLines chs → line.length ≤ width := by
  intro fuel
  induction fuel with
  | zero => intro _ _ line h; simp [wrapChunksCore] at h
  | succ fuel ih =>
    intro hasLines chs line h
    cases chs with
    | nil => simp [wrapChunksCore] at h
    | cons ch0 rest =>
      rw [wrapChunksCore] at h
      cases h1 : (if hasLines && chunkIsWs ch0 then rest else ch0 :: rest) with
      | nil => rw [h1] at h; simp at h
      | cons d ds =>
        simp only [h1] at h
        by_cases hemp : (emitLine width (d :: ds)).1.isEmpty = true
        · rw [if_pos hemp] at h
          exact ih hasLines (emitLine width (d :: ds)).2 line h
        · rw [if_neg hemp] at h
          rcases List.mem_cons.mp h with rfl | h2
          · rw [List.length_join]
            exact emitLine_sum_le width hw (d :: ds)
          · exact ih true (emitLine width (d :: ds)).2 line h2

/- ### Characters of the wrapper output -/

theorem mem_take_sub {α : Type} : ∀ (n : Nat) (l : List α) (a : α),
    a ∈ l.take n → a ∈ l := by
  intro n
  induction n with
  | zero => intro l a h; simp at h
  | succ n ih =>
    intro l a h
    cases l with
    | nil => simp at h
    | cons x xs =>
      simp only [List.take_succ_cons, List.mem_cons] at h
      rcases h with rfl | h
      · simp
      · exact List.mem_cons_of_mem x (ih xs a h)

theorem mem_drop_sub {α : Type} : ∀ (n : Nat) (l : List α) (a : α),
    a ∈ l.drop n → a ∈ l := by
  intro n
  induction n with
  | zero => intro l a h; simpa using h
  | succ n ih =>
    intro l a h
    cases l with
    | nil => simp at h
    | cons x xs =>
      simp only [List.drop_succ_cons] at h
      exact List.mem_cons_of_mem x (ih xs a h)

theorem mem_takeWhile_sub {p : Char → Bool} : ∀ (l : List Char) (c : Char),
    c ∈ l.takeWhile p → c ∈ l := by
  intro l
  induction l with
  | nil => intro c h; simp at h
  | cons x xs ih =>
    intro c h
    rw [List.takeWhile_cons] at h
    by_cases hx : p x = true
    · rw [if_pos hx] at h
      rcases List.mem_cons.mp h with rfl | h
      · simp
      · exact List.mem_cons_of_mem x (ih c h)
    · rw [if_neg hx] at h
      simp at h

theorem mem_dropWhile_sub {p : Char → Bool} : ∀ (l : List Char) (c : Char),
    c ∈ l.dropWhile p → c ∈ l := by
  intro l
  induction l with
  | nil => intro c h; simp at h
  | cons x xs ih =>
    intro c h
    rw [List.dropWhile_cons] at h
    by_cases hx : p x = true
    · rw [if_pos hx] at h
      exact List.mem_cons_of_mem x (ih c h)
    · rw [if_neg hx] at h
      exact h

theorem mem_dropLast_sub {α : Type} : ∀ (l : List α) (a : α),
    a ∈ l.dropLast → a ∈ l := by
  intro l
  induction l with
  | nil => intro a h; simp at h
  | cons x xs ih =>
    intro a h
    cases xs with
    | nil => simp at h
    | cons y ys =>
      rw [List.dropLast_cons_of_ne_nil (by simp : (y :: ys) ≠ [])] at h
      rcases List.mem_cons.mp h with rfl | h
      · simp
      · exact List.mem_cons_of_mem x (ih a h)

theorem splitChunksCore_chars : ∀ (fuel : Nat) (s : List Char) (ch : List Char),
    ch ∈ splitChunksCore fuel s → ∀ c ∈ ch, c ∈ s := by
  intro fuel
  induction fuel with
  | zero => intro s ch h; simp [splitChunksCore] at h
  | succ fuel ih =>
    intro s ch h c hc
    cases s with
    | nil => simp [splitChunksCore] at h
    | cons x xs =>
      simp only [splitChunksCore, List.mem_cons] at h
      rcases h with rfl | h
      · exact mem_takeWhile_sub _ c hc
      · exact mem_dropWhile_sub _ c (ih _ ch h c hc)

theorem mungeChar_ne_newline (c : Char) : ¬mungeChar c = '\n' := by
  by_cases h : pyWhitespaceChar c = true
  · simp [mungeChar, h]
  · simp only [mungeChar, h, if_false]
    intro he
    subst he
    exact h (by decide)

theorem mungeWhitespace_no_newline (s : List Char) :
    ∀ c ∈ mungeWhitespace s, ¬c = '\n' := by
  intro c hc
  unfold mungeWhitespace at hc
  rcases List.mem_map.mp hc with ⟨d, _, rfl⟩
  exact mungeChar_ne_newline d

theorem takeLine_mem (width : Nat) : ∀ (chs : List (List Char)) (curLen : Nat),
    (∀ ch ∈ (takeLine width curLen chs).1, ch ∈ chs) ∧
    (∀ ch ∈ (takeLine width curLen chs).2, ch ∈ chs) := by
  intro chs
  induction chs with
  | nil =>
    intro curLen
    constructor <;> intro ch h <;> simp [takeLine] at h
  | cons x xs ih =>
    intro curLen
    by_cases hfit : curLen + x.length ≤ width
    · simp only [takeLine, if_pos hfit]
      constructor
      · intro ch h
        rcases List.mem_cons.mp h with rfl | h
        · simp
        · exact List.mem_cons_of_mem x ((ih _).1 ch h)
      · intro ch h
        exact List.mem_cons_of_mem x ((ih _).2 ch h)
    · simp only [takeLine, if_neg hfit]
      constructor
      · intro ch h; simp at h
      · intro ch h; exact h

theorem handleLong_chars {P : Char → Prop} (width : Nat)
    (line0 rest0 : List (List Char))
    (hl : ∀ ch ∈ line0, ∀ c ∈ ch, P c) (hr : ∀ ch ∈ rest0, ∀ c ∈ ch, P c) :
    (∀ ch ∈ (handleLong width line0 rest0).1, ∀ c ∈ ch, P c) ∧
    (∀ ch ∈ (handleLong width line0 rest0).2, ∀ c ∈ ch, P c) := by
  cases rest0 with
  | nil =>
    simp only [handleLong]
    exact ⟨hl, by intro ch h; simp at h⟩
  | cons ch0 rest1 =>
    by_cases hlong : width < ch0.length
    · simp only [handleLong, if_pos hlong]
      constructor
      · intro ch h c hc
        rcases List.mem_append.mp h with h1 | h1
        · exact hl ch h1 c hc
        · rcases List.mem_singleton.mp h1 with rfl
          exact hr ch0 (by simp) c (mem_take_sub _ _ _ hc)
      · intro ch h c hc
        rcases List.mem_cons.mp h with rfl | h1
        · exact hr ch0 (by simp) c (mem_drop_sub _ _ _ hc)
        · exact hr ch (by simp [h1]) c hc
    · simp only [handleLong, if_neg hlong]
      exact ⟨hl, hr⟩

theorem dropTrailingWs_chars {P : Char → Prop} (line : List (List Char))
    (h : ∀ ch ∈ line, ∀ c ∈ ch, P c) :
    ∀ ch ∈ dropTrailingWs line, ∀ c ∈ ch, P c := by
  cases hl : line.getLast? with
  | none => simpa [dropTrailingWs, hl] using h
  | some last =>
    by_cases hws : chunkIsWs last = true
    · simp only [dropTrailingWs, hl, hws, if_true]
      intro ch hch c hc
      exact h ch (mem_dropLast_sub _ _ hch) c hc
    · simpa [dropTrailingWs, hl, hws] using h

theorem emitLine_chars {P : Char → Prop} (width : Nat) (chunks : List (List Char))
    (h : ∀ ch ∈ chunks, ∀ c ∈ ch, P c) :
    (∀ ch ∈ (emitLine width chunks).1, ∀ c ∈ ch, P c) ∧
    (∀ ch ∈ (emitLine width chunks).2, ∀ c ∈ ch, P c) := by
  have h1 : ∀ ch ∈ (takeLine width 0 chunks).1, ∀ c ∈ ch, P c :=
    fun ch hch => h ch ((takeLine_mem width chunks 0).1 ch hch)
  have h2 : ∀ ch ∈ (takeLine width 0 chunks).2, ∀ c ∈ ch, P c :=
    fun ch hch => h ch ((takeLine_mem width chunks 0).2 ch hch)
  have hh := handleLong_chars width _ _ h1 h2
  exact ⟨fun ch hch => dropTrailingWs_chars _ hh.1 ch hch, hh.2⟩

theorem wrapChunksCore_chars {P : Char → Prop} (width : Nat) :
    ∀ (fuel : Nat) (b : Bool) (chs : List (List Char)),
      (∀ ch ∈ chs, ∀ c ∈ ch, P c) →
      ∀ line ∈ wrapChunksCore width fuel b chs, ∀ c ∈ line, P c := by
  intro fuel
  induction fuel with
  | zero => intro b chs _ line h; simp [wrapChunksCore] at h
  | succ fuel ih =>
    intro b chs hch line h
    cases chs with
    | nil => simp [wrapChunksCore] at h
    | cons ch0 rest =>
      rw [wrapChunksCore] at h
      have hch1 : ∀ ch ∈ (if b && chunkIsWs ch0 then rest else ch0 :: rest),
          ∀ c ∈ ch, P c := by
        by_cases hc : (b && chunkIsWs ch0) = true
        · simp only [hc, if_true]
          intro ch hm
          exact hch ch (List.mem_cons_of_mem _ hm)
        · simp only [hc, if_false]
          exact hch
      cases h1 : (if b && chunkIsWs ch0 then rest else ch0 :: rest) with
      | nil => rw [h1] at h; simp at h
      | cons d ds =>
        rw [h1] at hch1
        simp only [h1] at h
        have he := emitLine_chars (P := P) width (d :: ds) hch1
        by_cases hemp : (emitLine width (d :: ds)).1.isEmpty = true
        · rw [if_pos hemp] at h
          exact ih _ _ he.2 line h
        · rw [if_neg hemp] at h
          rcases List.mem_cons.mp h with rfl | h2
          · intro c hc
            rcases List.mem_join.mp hc with ⟨l, hml, hcl⟩
            exact he.1 l hml c hcl
          · exact ih _ _ he.2 line h2

/- ### Claim theorem about wrap_text -/

theorem pyStrip_isEmpty_all (l : List Char) (h : (pyStrip l).isEmpty = true) :
    l.all pyWhitespaceChar = true := by
  rw [List.all_eq_true]
  intro c hc
  unfold pyStrip at h
  rw [List.isEmpty_iff] at h
  rw [List.reverse_eq_nil_iff] at h
  have hall2 := List.dropWhile_eq_nil_iff.mp h
  have hall3 : ∀ x ∈ l.dropWhile pyWhitespaceChar, pyWhitespaceChar x = true := by
    intro x hx
    exact hall2 x (List.mem_reverse.mpr hx)
  have hdecomp := List.takeWhile_append_dropWhile (p := pyWhitespaceChar) (l := l)
  rw [← hdecomp] at hc
  rcases List.mem_append.mp hc with h4 | h4
  · exact List.mem_takeWhile_imp h4
  · exact hall3 c h4

theorem fillL_lines (width : Nat) (p : List Char) :
    ∀ line ∈ splitNl (fillL width p),
      line = [] ∨
        line ∈ wrapChunksCore width (fillFuel (splitChunks (mungeWhitespace p)))
          false (splitChunks (mungeWhitespace p)) := by
  intro line h
  simp only [fillL] at h
  cases hLc : wrapChunksCore width (fillFuel (splitChunks (mungeWhitespace p)))
      false (splitChunks (mungeWhitespace p)) with
  | nil =>
    left
    rw [hLc] at h
    simpa [joinNl, splitNl] using h
  | cons l0 ls =>
    right
    have hchunks : ∀ ch ∈ splitChunks (mungeWhitespace p), ∀ c ∈ ch, ¬c = '\n' := by
      intro ch hch c hc2
      exact mungeWhitespace_no_newline p c (splitChunksCore_chars _ _ ch hch c hc2)
    have hnl : ∀ l ∈ l0 :: ls, ∀ c ∈ l, ¬c = '\n' := by
      intro l hl c hc
      refine wrapChunksCore_chars (P := fun c => ¬c = '\n') width
        (fillFuel (splitChunks (mungeWhitespace p))) false
        (splitChunks (mungeWhitespace p)) hchunks l ?_ c hc
      rw [hLc]
      exact hl
    rw [hLc] at h
    rw [splitNl_joinNl _ (by simp),
        bind_splitNl_id _ (fun l hl => splitNl_of_no_newline l (hnl l hl))] at h
    exact h

theorem wrapTextL_splitNl (t : List Char) :
    splitNl (wrapTextL t) =
      (splitNl t).bind (fun p =>
        if (pyStrip p).isEmpty then [p] else splitNl (fillL WRAP_WIDTH p)) := by
  unfold wrapTextL
  have hne : (splitNl t).map
      (fun p => if (pyStrip p).isEmpty then p else fillL WRAP_WIDTH p) ≠ [] := by
    intro he
    exact splitNl_ne_nil t (List.map_eq_nil.mp he)
  rw [splitNl_joinNl _ hne, map_bind_comp]
  apply bind_congr_mem
  intro p hp
  by_cases hb : (pyStrip p).isEmpty = true
  · simp only [hb, if_true]
    exact splitNl_of_no_newline p (splitNl_no_newline t p hp)
  · simp [hb]

theorem wrapTextL_line_bound (t : List Char) :
    ∀ line ∈ splitNl (wrapTextL t),
      line.length ≤ WRAP_WIDTH ∨ line.all pyWhitespaceChar = true := by
  intro line h
  rw [wrapTextL_splitNl] at h
  rcases List.mem_bind.mp h with ⟨p, hp, hline⟩
  by_cases hb : (pyStrip p).isEmpty = true
  · rw [if_pos hb] at hline
    rcases List.mem_singleton.mp hline with rfl
    right
    exact pyStrip_isEmpty_all _ hb
  · rw [if_neg hb] at hline
    rcases fillL_lines WRAP_WIDTH p line hline with rfl | hmem
    · left; simp [WRAP_WIDTH]
    · left
      exact mem_wrapChunksCore_length_le WRAP_WIDTH (by decide) _ _ _ line hmem

/-- C7: `wrap_text` splits its input into lines, leaves every blank
(whitespace only) line verbatim in place, independently fills every
other line at the fixed column `WRAP_WIDTH = 80`, and rejoins with
newlines, so every output line is either whitespace only (a preserved
blank line) or at most 80 characters long; a concrete 101 column
paragraph is rewrapped onto two lines. -/
theorem C7_wrap_text :
    (∀ t : List Char,
       splitNl (wrapTextL t) =
         (splitNl t).bind (fun p =>
           if (pyStrip p).isEmpty then [p] else splitNl (fillL WRAP_WIDTH p)))
    ∧ (∀ t : List Char, ∀ line ∈ splitNl (wrapTextL t),
         line.length ≤ WRAP_WIDTH ∨ line.all pyWhitespaceChar = true)
    ∧ wrap_text ⟨List.replicate 50 'a' ++ ' ' :: List.replicate 50 'b'⟩ =
        ⟨List.replicate 50 'a' ++ '\n' :: List.replicate 50 'b'⟩ :=
  ⟨wrapTextL_splitNl, wrapTextL_line_bound, by decide⟩

theorem C7_wrap_text_witness :
    (('a' :: 'b' :: []) ∈ splitNl (wrapTextL ('a' :: 'b' :: []))) ∧
      (('a' :: 'b' :: []).length ≤ WRAP_WIDTH ∨
        ('a' :: 'b' :: []).all pyWhitespaceChar = true) :=
  ⟨by decide, C7_wrap_text.2.1 ('a' :: 'b' :: []) ('a' :: 'b' :: []) (by decide)⟩

/- ### One turn of the console loop in `chat` -/

/-- Exit keywords `EXIT_COMMANDS` from `src/agent.py`. -/
def EXIT_COMMANDS : List String := ["exit", "quit", "bye"]

/-- Model of Python `str.lower()` (ASCII scope): lower every character. -/
def strLower (s : String) : String := ⟨s.data.map Char.toLower⟩

/-- States of the console loop visible between turns. -/
inductive LoopState where
  | awaitingInput : LoopState
  | terminated : LoopState
deriving DecidableEq

/-- Observable result of one loop iteration: the next state, the
conversation history kept for the next turn, and the lines printed. -/
structure TurnResult (μ : Type) where
  state : LoopState
  history : List μ
  printed : List String

/-- The external agent as a black box: `agent.run(input, history)` either
returns the output text together with `result.all_messages()` (the full
new history) or raises. -/
def AgentRun (μ : Type) : Type :=
  String → List μ → Except String (String × List μ)

/-- One iteration of the `while True` loop of `chat` on a line of input:
an input whose lowering is one of `EXIT_COMMANDS` prints the farewell and
terminates; otherwise the agent runs on the input and the current
history; on success the wrapped output is printed and the history is
replaced by the full returned history; on an exception the wrapped error
message is printed (the traceback of `traceback.print_exc` is not
modelled as text), the history is kept, and the loop awaits new input. -/
def chatStep {μ : Type} (run : AgentRun μ) (history : List μ)
    (input : String) : TurnResult μ :=
  if strLower input ∈ EXIT_COMMANDS then
    ⟨LoopState.terminated, history, ["\nThanks for chatting!"]⟩
  else
    match run input history with
    | .ok (output, allMessages) =>
      ⟨LoopState.awaitingInput, allMessages,
       ["\nAgent:\n" ++ wrap_text output ++ "\n"]⟩
    | .error e =>
      ⟨LoopState.awaitingInput, history,
       [wrap_text ("\nError: " ++ e),
        wrap_text "Continuing conversation despite error...\n"]⟩

/-- Agent stub that records its invocation in the history. -/
def runProbe : AgentRun String := fun _ _ => .ok ("response", ["turn"])

/-- Agent stub that always raises. -/
def runRaise : AgentRun String := fun _ _ => .error "boom"

/-- C2 counterexample: the input consisting of the exit keyword bye with
leading whitespace is not recognized as an exit command; the loop stays
in the awaiting state and the agent is invoked (the history is replaced
by the result of the invoked agent), contradicting the claimed
transition to the terminated state without invoking the agent. -/
theorem C2_counterexample :
    (chatStep runProbe [] "  bye").state ≠ LoopState.terminated ∧
      (chatStep runProbe [] "  bye").history = ["turn"] := by
  constructor
  · decide
  · decide

/-- C2 (amended): an input whose lowercased text is exactly one of the
exit keywords (no whitespace trimming is applied) moves the loop to the
terminated state, prints the farewell, leaves the history unchanged, and
does not invoke the agent: the result does not depend on the agent
function. -/
theorem C2_exit_amended {μ : Type} (run run2 : AgentRun μ) (history : List μ)
    (input : String) (h : strLower input ∈ EXIT_COMMANDS) :
    chatStep run history input =
      ⟨LoopState.terminated, history, ["\nThanks for chatting!"]⟩ ∧
      chatStep run history input = chatStep run2 history input := by
  constructor
  · simp [chatStep, h]
  · simp [chatStep, h]

theorem C2_exit_amended_witness :
    strLower "Exit" ∈ EXIT_COMMANDS ∧
      (chatStep runProbe [] "Exit" =
        ⟨LoopState.terminated, [], ["\nThanks for chatting!"]⟩ ∧
       chatStep runProbe [] "Exit" = chatStep runRaise [] "Exit") :=
  ⟨by decide, C2_exit_amended runProbe runRaise [] "Exit" (by decide)⟩

/-- C4: when the agent call raises, the loop prints the wrapped error
message, continues the conversation, returns to awaiting input with the
history exactly as before the failed turn, and a subsequent turn with any
agent behaves exactly as if run on the unmodified prior history; no
single failed turn terminates the session. -/
theorem C4_turn_error {μ : Type} (run : AgentRun μ) (history : List μ)
    (input e : String) (hx : strLower input ∉ EXIT_COMMANDS)
    (hr : run input history = .error e) :
    chatStep run history input =
      ⟨LoopState.awaitingInput, history,
       [wrap_text ("\nError: " ++ e),
        wrap_text "Continuing conversation despite error...\n"]⟩ ∧
      ∀ (run2 : AgentRun μ) (input2 : String),
        chatStep run2 (chatStep run history input).history input2 =
          chatStep run2 history input2 := by
  have h1 : chatStep run history input =
      ⟨LoopState.awaitingInput, history,
       [wrap_text ("\nError: " ++ e),
        wrap_text "Continuing conversation despite error...\n"]⟩ := by
    simp [chatStep, hx, hr]
  exact ⟨h1, fun run2 input2 => by rw [h1]⟩

theorem C4_turn_error_witness :
    strLower "hello" ∉ EXIT_COMMANDS ∧
      runRaise "hello" [] = .error "boom" ∧
      (chatStep runRaise [] "hello" =
        ⟨LoopState.awaitingInput, [],
         [wrap_text ("\nError: " ++ "boom"),
          wrap_text "Continuing conversation despite error...\n"]⟩ ∧
       ∀ (run2 : AgentRun String) (input2 : String),
         chatStep run2 (chatStep runRaise [] "hello").history input2 =
           chatStep run2 [] input2) :=
  ⟨by decide, rfl, C4_turn_error runRaise [] "hello" "boom" (by decide) rfl⟩

theorem toLower_of_whitespace {c : Char} (h : pyWhitespaceChar c = true) :
    Char.toLower c = c := by
  simp only [pyWhitespaceChar, Bool.or_eq_true] at h
  rcases h with ((((h | h) | h) | h) | h) | h <;>
    · rw [show c = _ from by exact_mod_cast (of_decide_eq_true (by exact h))]
      decide

theorem exit_keyword_no_ws {s : String} (hs : s ∈ EXIT_COMMANDS) {c : Char}
    (hc : c ∈ s.data) : pyWhitespaceChar c = false := by
  have hsc : s = "exit" ∨ s = "quit" ∨ s = "bye" := by simpa [EXIT_COMMANDS] using hs
  rcases hsc with rfl | rfl | rfl
  · have hd : ("exit" : String).data = ['e', 'x', 'i', 't'] := rfl
    rw [hd] at hc
    simp only [List.mem_cons, List.not_mem_nil, or_false] at hc
    rcases hc with rfl | rfl | rfl | rfl <;> decide
  · have hd : ("quit" : String).data = ['q', 'u', 'i', 't'] := rfl
    rw [hd] at hc
    simp only [List.mem_cons, List.not_mem_nil, or_false] at hc
    rcases hc with rfl | rfl | rfl | rfl <;> decide
  · have hd : ("bye" : String).data = ['b', 'y', 'e'] := rfl
    rw [hd] at hc
    simp only [List.mem_cons, List.not_mem_nil, or_false] at hc
    rcases hc with rfl | rfl | rfl <;> decide

/-- C10: the exit comparison lowercases the input but never trims it: an
exit keyword surrounded by any nonempty whitespace padding is not
recognized as an exit command, and such an input is forwarded to the
agent as a normal turn. -/
theorem C10_no_trim {μ : Type} (run : AgentRun μ) (history : List μ)
    (k pre post : String) (hk : k ∈ EXIT_COMMANDS)
    (hpre : ∀ c ∈ pre.data, pyWhitespaceChar c = true)
    (hpost : ∀ c ∈ post.data, pyWhitespaceChar c = true)
    (hne : pre.data ≠ [] ∨ post.data ≠ []) :
    strLower (pre ++ k ++ post) ∉ EXIT_COMMANDS ∧
      ∀ (out : String) (msgs : List μ),
        run (pre ++ k ++ post) history = .ok (out, msgs) →
        chatStep run history (pre ++ k ++ post) =
          ⟨LoopState.awaitingInput, msgs,
           ["\nAgent:\n" ++ wrap_text out ++ "\n"]⟩ := by
  have hnotmem : strLower (pre ++ k ++ post) ∉ EXIT_COMMANDS := by
    intro hmem
    have hsdata : (strLower (pre ++ k ++ post)).data =
        (pre.data.map Char.toLower) ++ (k.data.map Char.toLower) ++
          (post.data.map Char.toLower) := by
      simp [strLower, String.data_append, List.map_append]
    have hws : ∃ c, pyWhitespaceChar c = true ∧
        c ∈ (strLower (pre ++ k ++ post)).data := by
      rcases hne with h | h
      · cases hp : pre.data with
        | nil => exact absurd hp h
        | cons c0 cs =>
          have hm0 : c0 ∈ pre.data := by rw [hp]; simp
          refine ⟨Char.toLower c0, ?_, ?_⟩
          · rw [toLower_of_whitespace (hpre c0 hm0)]
            exact hpre c0 hm0
          · rw [hsdata]
            exact List.mem_append_left _
              (List.mem_append_left _ (List.mem_map_of_mem Char.toLower hm0))
      · cases hp : post.data with
        | nil => exact absurd hp h
        | cons c0 cs =>
          have hm0 : c0 ∈ post.data := by rw [hp]; simp
          refine ⟨Char.toLower c0, ?_, ?_⟩
          · rw [toLower_of_whitespace (hpost c0 hm0)]
            exact hpost c0 hm0
          · rw [hsdata]
            exact List.mem_append_right _ (List.mem_map_of_mem Char.toLower hm0)
    rcases hws with ⟨c, hcw, hcm⟩
    have hcases : strLower (pre ++ k ++ post) = "exit" ∨
        strLower (pre ++ k ++ post) = "quit" ∨
        strLower (pre ++ k ++ post) = "bye" := by
      simpa [EXIT_COMMANDS] using hmem
    rcases hcases with heq | heq | heq <;>
      · rw [heq] at hcm
        have hnw := exit_keyword_no_ws (by decide) hcm
        rw [hnw] at hcw
        exact Bool.false_ne_true hcw
  refine ⟨hnotmem, ?_⟩
  intro out msgs hrun
  simp [chatStep, hnotmem, hrun]

theorem C10_no_trim_witness :
    ("bye" : String) ∈ EXIT_COMMANDS ∧
      strLower ("  " ++ "bye" ++ "") ∉ EXIT_COMMANDS ∧
      chatStep runProbe [] ("  " ++ "bye" ++ "") =
        ⟨LoopState.awaitingInput, ["turn"],
         ["\nAgent:\n" ++ wrap_text "response" ++ "\n"]⟩ :=
  ⟨by decide,
   (C10_no_trim runProbe [] "bye" "  " "" (by decide) (by decide) (by decide)
     (Or.inl (by decide))).1,
   (C10_no_trim runProbe [] "bye" "  " "" (by decide) (by decide) (by decide)
     (Or.inl (by decide))).2 "response" ["turn"] rfl⟩
